import Mathlib

/-!
Verification of the DeepQA batch-assembly and beam-search decoding
subsystem, embedded shallowly from src/chatbot/textdata.py and
src/chatbot/chatbot.py.  Token ids are modelled as naturals, float
quantities as reals (generic linearly ordered fields where the code is
polymorphic in the score arithmetic), python AssertionError as the
error case of Except, and a python function returning None as Option.
-/

namespace DeepQA

/-- Run-configuration flags and sizes (the fields of self.args read by
TextData._createBatch, TextData.sentence2enco and Chatbot.singlePredict).
In the source args.test is a string mode that is truthy at inference
time; here it is the corresponding boolean. -/
structure Args where
  test : Bool
  watsonMode : Bool
  match_encoder_decoder_input : Bool
  food_context : Bool
  first_step : Bool
  maxLength : ℕ
  maxLengthEnco : ℕ
  maxLengthDeco : ℕ
deriving Repr, DecidableEq

/-- The four reserved token ids of TextData (padToken, goToken, eosToken,
unknownToken). -/
structure Toks where
  padToken : ℕ
  goToken : ℕ
  eosToken : ℕ
  unknownToken : ℕ
deriving Repr, DecidableEq

/-- One training or inference sample [input, target], optionally carrying
the context embedding sample[2] that is read only in food_context mode.
Watson mode in the source reverses the two-element sample list, which for
a pair [input, target] is exactly the swap modelled in watsonAdjust. -/
structure Sample where
  src : List ℕ
  tgt : List ℕ
  ctx : List ℝ

/-- The zero context vector np.zeros(64,) used for padding context steps. -/
def zeros64 : List ℝ := List.replicate 64 0

/-- The Batch struct of textdata.py (time-major after _createBatch). -/
structure Batch where
  encoderSeqs : List (List ℕ)
  decoderSeqs : List (List ℕ)
  targetSeqs : List (List ℕ)
  weights : List (List ℝ)
  contextSeqs : List (List (List ℝ))

/-- Watson-mode swap (textdata.py line 163-164): when not at test time and
watsonMode is set, the sample list [input, target] is reversed, i.e. the
source and target roles are swapped. -/
def watsonAdjust (args : Args) (s : Sample) : Sample :=
  if !args.test && args.watsonMode then { s with src := s.tgt, tgt := s.src } else s

/-- target_seq_with_go (textdata.py line 166): [goToken] + sample[1] + [eosToken]. -/
def targetSeqWithGo (tok : Toks) (s : Sample) : List ℕ :=
  [tok.goToken] ++ s.tgt ++ [tok.eosToken]

/-- Decoder input row (textdata.py lines 167-171): the encoder input framed
by go/eos when match_encoder_decoder_input is set, otherwise
target_seq_with_go. -/
def decoderRow (tok : Toks) (args : Args) (s : Sample) : List ℕ :=
  if args.match_encoder_decoder_input
  then [tok.goToken] ++ s.src ++ [tok.eosToken]
  else targetSeqWithGo tok s

/-- Target row (textdata.py line 177): target_seq_with_go[1:], the target
sequence shifted left so the leading go token is dropped. -/
def targetRow (tok : Toks) (s : Sample) : List ℕ :=
  (targetSeqWithGo tok s).drop 1

/-- Encoder input row (textdata.py line 165): the reversed source. -/
def encoderRow (s : Sample) : List ℕ :=
  s.src.reverse

/-- Context rows (textdata.py lines 172-176): the sample embedding at every
decoder step, or only at the first step followed by zero vectors. -/
def contextRows (args : Args) (s : Sample) : List (List ℝ) :=
  if args.first_step
  then [s.ctx] ++ List.replicate (args.maxLengthDeco - 1) zeros64
  else List.replicate args.maxLengthDeco s.ctx

/-- Per-sample padded row data built by the first loop of
TextData._createBatch (textdata.py lines 160-187), before the time-major
transpose. -/
structure Rows where
  enc : List ℕ
  dec : List ℕ
  tgt : List ℕ
  w : List ℝ
  ctx : List (List ℝ)

/-- The body of the per-sample loop of _createBatch: watson swap, row
construction, the two length assertions (modelled as the Except error),
then left padding of the encoder row, the weight mask from the unpadded
target length, and right padding of the decoder and target rows. -/
def sampleRows (tok : Toks) (args : Args) (s0 : Sample) : Except String Rows :=
  if (encoderRow (watsonAdjust args s0)).length ≤ args.maxLengthEnco then
    if (decoderRow tok args (watsonAdjust args s0)).length ≤ args.maxLengthDeco then
      Except.ok
        { enc := List.replicate
              (args.maxLengthEnco - (encoderRow (watsonAdjust args s0)).length)
              tok.padToken ++ encoderRow (watsonAdjust args s0)
          dec := decoderRow tok args (watsonAdjust args s0)
              ++ List.replicate
                (args.maxLengthDeco
                  - (decoderRow tok args (watsonAdjust args s0)).length)
                tok.padToken
          tgt := targetRow tok (watsonAdjust args s0)
              ++ List.replicate
                (args.maxLengthDeco - (targetRow tok (watsonAdjust args s0)).length)
                tok.padToken
          w := List.replicate (targetRow tok (watsonAdjust args s0)).length (1 : ℝ)
              ++ List.replicate
                (args.maxLengthDeco - (targetRow tok (watsonAdjust args s0)).length)
                (0 : ℝ)
          ctx := if args.food_context then contextRows args (watsonAdjust args s0)
                else [] }
    else Except.error "AssertionError: decoder length"
  else Except.error "AssertionError: encoder length"

/-- The per-sample loop of _createBatch over the whole sample list, stopping
at the first assertion failure exactly as the python loop would raise. -/
def buildRows (tok : Toks) (args : Args) : List Sample → Except String (List Rows)
  | [] => Except.ok []
  | s :: rest => do
    let r ← sampleRows tok args s
    let rs ← buildRows tok args rest
    return r :: rs

/-- The time-major transpose of _createBatch (textdata.py lines 189-222):
entry [i][j] of each output tensor is row j at step i; context steps are
zero vectors when food_context is disabled. -/
def transposeRows (args : Args) (rows : List Rows) : Batch :=
  { encoderSeqs :=
      (List.range args.maxLengthEnco).map fun i => rows.map fun r => r.enc.getD i 0
    decoderSeqs :=
      (List.range args.maxLengthDeco).map fun i => rows.map fun r => r.dec.getD i 0
    targetSeqs :=
      (List.range args.maxLengthDeco).map fun i => rows.map fun r => r.tgt.getD i 0
    weights :=
      (List.range args.maxLengthDeco).map fun i => rows.map fun r => r.w.getD i 0
    contextSeqs :=
      (List.range args.maxLengthDeco).map fun i => rows.map fun r =>
        if args.food_context then r.ctx.getD i [] else zeros64 }

/-- TextData._createBatch (textdata.py lines 145-229). -/
def createBatch (tok : Toks) (args : Args) (samples : List Sample) :
    Except String Batch :=
  (buildRows tok args samples).map (transposeRows args)

/-- The vocabulary state of TextData: the python dicts word2id and id2word
as insertion-ordered association lists, plus the unknown token id.  The
python sentinel word2id.get(word, -1) == -1 is modelled as the lookup
returning none (ids are the nonnegative sizes of the table, so -1 never
collides with a stored id). -/
structure Vocab where
  word2id : List (String × ℕ)
  id2word : List (ℕ × String)
  unknownToken : ℕ

/-- Python str.lower, modelled as the character-wise lower-casing of the
string. -/
def pyLower (s : String) : String := ⟨s.data.map Char.toLower⟩

/-- TextData.getWordId (textdata.py lines 467-492): lower-case the word,
look it up, and on a miss either register it under the next sequential id
(the current table size) in both directions, or fall back to the unknown
id leaving the vocabulary unchanged. -/
def getWordId (v : Vocab) (word : String) (create : Bool) : ℕ × Vocab :=
  let w := pyLower word
  match v.word2id.lookup w with
  | some wordId => (wordId, v)
  | none =>
    if create then
      let wordId := v.word2id.length
      (wordId,
        { v with
          word2id := v.word2id ++ [(w, wordId)]
          id2word := v.id2word ++ [(wordId, w)] })
    else (v.unknownToken, v)

/-- The clean-rendering loop of TextData.sequence2str (textdata.py lines
522-527): stop at the first eos token, keep every token that is neither
pad nor go. -/
def cleanSeqAux (tok : Toks) (id2word : ℕ → String) : List ℕ → List String
  | [] => []
  | w :: ws =>
    if w = tok.eosToken then []
    else if w ≠ tok.padToken ∧ w ≠ tok.goToken then
      id2word w :: cleanSeqAux tok id2word ws
    else cleanSeqAux tok id2word ws

/-- TextData.sequence2str (textdata.py lines 506-532). -/
def sequence2str (tok : Toks) (id2word : ℕ → String) (seq : List ℕ)
    (clean reverse : Bool) : String :=
  if seq = [] then ""
  else if !clean then String.intercalate " " (seq.map id2word)
  else
    let sentence := cleanSeqAux tok id2word seq
    let sentence := if reverse then sentence.reverse else sentence
    String.intercalate " " sentence

/-- The eos scan of Chatbot.singlePredict (chatbot.py lines 531-538):
lastTokenIndex[kk] starts at num_steps and is set to the first i in
range(num_steps - 1) with symbol[i][kk] == eosToken, the loop breaking
there. -/
def lastTokenIndex (T : ℕ) (sym : ℕ → ℕ → ℕ) (eos kk : ℕ) : ℕ :=
  (((List.range (T - 1)).find? fun i => sym i kk == eos).getD T)

/-- Termination step as the specification describes it: the first step in
0..T-1 whose symbol is the end token, or T-1 when none is. -/
def specTermStep (T : ℕ) (sym : ℕ → ℕ → ℕ) (eos k : ℕ) : ℕ :=
  (((List.range T).find? fun i => sym i k == eos).getD (T - 1))

/-- The mutable per-beam arrays of the backward traceback loop of
Chatbot.singlePredict (chatbot.py lines 539-546): curr, paths and
log_probs, each indexed by the beam slot. -/
structure TBState where
  curr : ℕ → ℕ
  pathsAcc : ℕ → List ℕ
  logAcc : ℕ → ℝ

/-- The body of the inner loop over beam slots (chatbot.py lines 541-546):
slots whose step index lies beyond lastTokenIndex are skipped, otherwise
the slot appends symbol[i][curr[kk]] to paths[kk], adds probs[i][curr[kk]]
to log_probs[kk] and moves curr[kk] to path[i][curr[kk]]. -/
def tbBody (sym bp : ℕ → ℕ → ℕ) (pr : ℕ → ℕ → ℝ) (last : ℕ → ℕ) (i : ℕ)
    (st : TBState) (kk : ℕ) : TBState :=
  if last kk < i then st
  else
    { curr := Function.update st.curr kk (bp i (st.curr kk))
      pathsAcc := Function.update st.pathsAcc kk (st.pathsAcc kk ++ [sym i (st.curr kk)])
      logAcc := Function.update st.logAcc kk (st.logAcc kk + pr i (st.curr kk)) }

/-- The full backward traceback of Chatbot.singlePredict (chatbot.py lines
539-546): curr initialised to list(range(beam_size)), paths empty and
log_probs zero, then the nested loops over i = num_steps-1 .. 0 and the
beam slots. -/
def tbRun (sym bp : ℕ → ℕ → ℕ) (pr : ℕ → ℕ → ℝ) (last : ℕ → ℕ) (T K : ℕ) :
    TBState :=
  ((List.range T).reverse).foldl
    (fun st i => (List.range K).foldl (tbBody sym bp pr last i) st)
    ⟨fun kk => kk, fun _ => [], fun _ => 0⟩

/-- The slot-kk view of a traceback state: its cursor, token buffer and
log-probability accumulator. -/
def stComp (st : TBState) (kk : ℕ) : ℕ × List ℕ × ℝ :=
  (st.curr kk, st.pathsAcc kk, st.logAcc kk)

/-- foutputs (chatbot.py line 552): the emitted candidate of a beam slot,
its token buffer reversed into forward order. -/
def foutputsOf (st : TBState) (kk : ℕ) : List ℕ :=
  (st.pathsAcc kk).reverse

/-- One step of the traceback seen from a single beam slot: the effect of
tbBody on the components of that slot. -/
def slotStep (sym bp : ℕ → ℕ → ℕ) (pr : ℕ → ℕ → ℝ) (L i : ℕ) :
    ℕ × List ℕ × ℝ → ℕ × List ℕ × ℝ
  | (c, p, a) => if L < i then (c, p, a) else (bp i c, p ++ [sym i c], a + pr i c)

/-- The backward loop seen from a single beam slot: steps n-1 down to 0
applied to the slot components. -/
def slotRun (sym bp : ℕ → ℕ → ℕ) (pr : ℕ → ℕ → ℝ) (L : ℕ) :
    ℕ → ℕ × List ℕ × ℝ → ℕ × List ℕ × ℝ
  | 0, s => s
  | n + 1, s => slotRun sym bp pr L n (slotStep sym bp pr L n s)

/-- The token buffer of the walk the specification describes: from step t
down to step 0, append the symbol at the current slot and follow the
backpointer; the buffer is in reverse order, the forward candidate being
its reversal. -/
def specTraceTokens (sym bp : ℕ → ℕ → ℕ) : ℕ → ℕ → List ℕ
  | 0, c => [sym 0 c]
  | t + 1, c => sym (t + 1) c :: specTraceTokens sym bp t (bp (t + 1) c)

/-- The running log-probability total of the walk the specification
describes, over the same steps as specTraceTokens. -/
def specTraceLogProb (bp : ℕ → ℕ → ℕ) (pr : ℕ → ℕ → ℝ) : ℕ → ℕ → ℝ
  | 0, c => pr 0 c
  | t + 1, c => pr (t + 1) c + specTraceLogProb bp pr t (bp (t + 1) c)

/-- TextData.sentence2enco (textdata.py lines 550-583), with the external
tokenizer nltk.word_tokenize and the food-embedding network fetch
(explicitly out of the specified scope) abstracted as function
parameters.  The source returns None for an empty sentence or an
over-long tokenization, modelled as the Option inside the Except that
carries the assertions of _createBatch. -/
def sentence2enco (v : Vocab) (tok : Toks) (args : Args)
    (tokenize : String → List String) (fetchEmb : String → List ℝ)
    (sentence : String) : Except String (Option Batch) :=
  if sentence = "" then Except.ok none
  else if args.maxLength < (tokenize sentence).length then Except.ok none
  else if args.food_context then
    (createBatch tok args
      [⟨(tokenize sentence).map fun t => (getWordId v t false).1, [],
        fetchEmb sentence⟩]).map some
  else
    (createBatch tok args
      [⟨(tokenize sentence).map fun t => (getWordId v t false).1, [],
        []⟩]).map some

/-- The head of Chatbot.singlePredict (chatbot.py lines 510-513): encode
the question, return None when no batch was produced, and otherwise run
the decode (the model step and candidate selection, abstracted here) on
the batch. -/
def singlePredictFront (v : Vocab) (tok : Toks) (args : Args)
    (tokenize : String → List String) (fetchEmb : String → List ℝ)
    (decode : Batch → List ℕ) (question : String) :
    Except String (Option (List ℕ)) :=
  (sentence2enco v tok args tokenize fetchEmb question).map fun b =>
    match b with
    | none => none
    | some batch => some (decode batch)

/-- The bigram fluency penalty log_LM_penalty of Chatbot.singlePredict
(chatbot.py lines 560-568): a fold over the words with the running
previous word starting at the start marker, adding log of the bigram
probability only when that probability is positive.  Scores are python
floats combined with math.log; the arithmetic is modelled over a
linearly ordered field with an abstract logarithm rlog, the intended
instance being the reals with Real.log. -/
def lmPenalty {R : Type} [LinearOrderedField R] (rlog : R → R)
    (P : String → String → R) (words : List String) : R :=
  (words.foldl
    (fun (acc : R × String) w =>
      (if 0 < P acc.2 w then acc.1 + rlog (P acc.2 w) else acc.1, w))
    (0, "<start>")).1

/-- Modelled from the specification wording, for comparison with
lmPenalty: the sum over successive tokens of log P(token | previous),
a bigram whose probability is exactly zero contributing zero. -/
def specLMPenaltyAux {R : Type} [LinearOrderedField R] (rlog : R → R)
    (P : String → String → R) : String → List String → R
  | _, [] => 0
  | prev, w :: rest =>
      (if P prev w = 0 then 0 else rlog (P prev w))
        + specLMPenaltyAux rlog P w rest

/-- The MMI adjusted score of one candidate (chatbot.py lines 558-571):
raw log probability minus lambda_wt times the bigram penalty over the
first gamma_wt tokens, plus gamma_wt times the candidate length (the
length of paths[kk], which equals the length of its reversal foutputs). -/
def mmiScoreOf {R : Type} [LinearOrderedField R] (rlog : R → R)
    (id2word : ℕ → String) (P : String → String → R) (lambda_wt : R)
    (gamma_wt : ℕ) (rawLP : R) (cand : List ℕ) : R :=
  rawLP - lambda_wt * lmPenalty rlog P ((cand.take gamma_wt).map id2word)
    + (gamma_wt : R) * (cand.length : R)

/-- The mutable state of the candidate loop of Chatbot.singlePredict
(chatbot.py lines 549-583): reply_score_map as an insertion-ordered
association list, and the answer with its best score.  In the source
answer and best_score are unassigned before the loop and are first
written at slot 0, which always takes the kk == 0 branch; the initial
values here are inert placeholders that are overwritten before any
read. -/
structure PredState (R : Type) where
  map : List (String × R)
  answer : List ℕ
  best : R

/-- The body of the candidate loop of Chatbot.singlePredict (chatbot.py
lines 551-583) at slot kk: render the candidate, skip it when its reply
is already in reply_score_map, otherwise record its score and update the
running best answer, replacing it only on a strictly greater score (the
kk == 0 iteration initialises it). -/
def predStep {R : Type} [LinearOrderedField R] (render : List ℕ → String)
    (cand : ℕ → List ℕ) (scoreOf : ℕ → R) (st : PredState R) (kk : ℕ) :
    PredState R :=
  let reply := render (cand kk)
  if (st.map.lookup reply).isSome then st
  else
    let score := scoreOf kk
    let st1 : PredState R := { st with map := st.map ++ [(reply, score)] }
    if kk = 0 then { st1 with answer := cand kk, best := score }
    else if st1.best < score then { st1 with answer := cand kk, best := score }
    else st1

/-- The candidate loop of Chatbot.singlePredict over the beam slots
0 .. K-1. -/
def predRun {R : Type} [LinearOrderedField R] (render : List ℕ → String)
    (cand : ℕ → List ℕ) (scoreOf : ℕ → R) (K : ℕ) : PredState R :=
  (List.range K).foldl (predStep render cand scoreOf) ⟨[], [], 0⟩

/-- The per-slot score used by the loop (chatbot.py lines 558-577): the
MMI adjusted score of the candidate when MMI is enabled, else the raw
log probability log_probs[kk]. -/
def scoreOfMode {R : Type} [LinearOrderedField R] (MMI : Bool) (rlog : R → R)
    (id2word : ℕ → String) (P : String → String → R) (lambda_wt : R)
    (gamma_wt : ℕ) (lp : ℕ → R) (cand : ℕ → List ℕ) (kk : ℕ) : R :=
  if MMI then mmiScoreOf rlog id2word P lambda_wt gamma_wt (lp kk) (cand kk)
  else lp kk

/-- Modelled from the specification dedup wording, for comparison with
the reply_score_map contents: the beam indices retained by first-seen
dedup, those whose rendered string differs from that of every earlier
slot. -/
def firstSeenIndices (render : List ℕ → String) (cand : ℕ → List ℕ)
    (K : ℕ) : List ℕ :=
  (List.range K).filter fun kk =>
    decide (∀ j < kk, render (cand j) ≠ render (cand kk))

/-- The insertion step of a stable descending sort on a key: the new
element goes after every already-placed element whose key is greater or
equal. -/
def insertDesc {α R : Type} [LinearOrder R] (key : α → R) (x : α) :
    List α → List α
  | [] => [x]
  | y :: ys => if key x ≤ key y then y :: insertDesc key x ys else x :: y :: ys

/-- Python sorted(reply_score_map.items(), key=itemgetter(1),
reverse=True) (chatbot.py line 586): python sorted is specified stable,
embedded as the stable descending insertion sort over the items in
insertion order. -/
def pySortDesc {α R : Type} [LinearOrder R] (key : α → R) (l : List α) :
    List α :=
  l.foldl (fun acc x => insertDesc key x acc) []

/-- x occupies a strictly earlier position than y in l. -/
def listBefore {α : Type} (x y : α) (l : List α) : Prop :=
  ∃ l₁ l₂ l₃, l = l₁ ++ x :: l₂ ++ y :: l₃

/-! ## Theorems -/

lemma find?_range_eq_some {p : ℕ → Bool} {n i : ℕ} :
    (List.range n).find? p = some i ↔ i < n ∧ p i = true ∧ ∀ j < i, p j = false := by
  induction n generalizing i with
  | zero => simp
  | succ n ih =>
    rw [List.range_succ, List.find?_append]
    cases h : (List.range n).find? p with
    | some j =>
      obtain ⟨hj, hpj, hmin⟩ := (@ih j).mp h
      simp only [Option.or_some, Option.some_inj]
      constructor
      · rintro rfl
        exact ⟨by omega, hpj, hmin⟩
      · rintro ⟨hi, hpi, hmini⟩
        by_contra hne
        rcases Nat.lt_or_ge j i with hlt | hge
        · exact absurd hpj (by simpa using hmini j hlt)
        · have : i < j := by omega
          exact absurd hpi (by simpa using hmin i this)
    | none =>
      have hnone : ∀ j < n, p j = false := by
        intro j hjn
        have := List.find?_eq_none.mp h j (List.mem_range.mpr hjn)
        simpa using this
      simp only [Option.none_or]
      constructor
      · intro hfind
        have hpn : p n = true := by
          rcases hpn : p n with _ | _
          · simp [List.find?, hpn] at hfind
          · rfl
        have : i = n := by
          simp [List.find?, hpn] at hfind
          omega
        subst this
        exact ⟨by omega, hpn, hnone⟩
      · rintro ⟨hi, hpi, hmini⟩
        have hin : i = n := by
          rcases Nat.lt_or_ge i n with hlt | hge
          · exact absurd hpi (by simp [hnone i hlt])
          · omega
        subst hin
        simp [List.find?, hpi]


lemma stComp_tbBody (sym bp : ℕ → ℕ → ℕ) (pr : ℕ → ℕ → ℝ) (last : ℕ → ℕ)
    (i : ℕ) (st : TBState) (j kk : ℕ) :
    stComp (tbBody sym bp pr last i st j) kk
      = if kk = j then slotStep sym bp pr (last j) i (stComp st j)
        else stComp st kk := by
  by_cases hg : last j < i
  · by_cases hk : kk = j <;> simp [tbBody, slotStep, stComp, hg, hk]
  · by_cases hk : kk = j <;>
      simp [tbBody, slotStep, stComp, hg, hk, Function.update]

lemma stComp_innerFold (sym bp : ℕ → ℕ → ℕ) (pr : ℕ → ℕ → ℝ) (last : ℕ → ℕ)
    (i : ℕ) (l : List ℕ) (hnd : l.Nodup) (st : TBState) (kk : ℕ) :
    stComp (l.foldl (tbBody sym bp pr last i) st) kk
      = if kk ∈ l then slotStep sym bp pr (last kk) i (stComp st kk)
        else stComp st kk := by
  induction l generalizing st with
  | nil => simp
  | cons j l ih =>
    rw [List.foldl_cons, ih (List.Nodup.of_cons hnd)]
    by_cases hk : kk = j
    · subst hk
      have hkl : kk ∉ l := (List.nodup_cons.mp hnd).1
      simp [hkl, stComp_tbBody]
    · simp [stComp_tbBody, hk, List.mem_cons]

lemma stComp_tbRun_aux (sym bp : ℕ → ℕ → ℕ) (pr : ℕ → ℕ → ℝ) (last : ℕ → ℕ)
    (K : ℕ) (T : ℕ) (st : TBState) (kk : ℕ) (hk : kk < K) :
    stComp (((List.range T).reverse).foldl
        (fun st i => (List.range K).foldl (tbBody sym bp pr last i) st) st) kk
      = slotRun sym bp pr (last kk) T (stComp st kk) := by
  induction T generalizing st with
  | zero => simp [slotRun]
  | succ T ih =>
    rw [List.range_succ, List.reverse_append]
    simp only [List.reverse_cons, List.reverse_nil, List.nil_append,
      List.singleton_append, List.foldl_cons]
    rw [ih]
    rw [stComp_innerFold sym bp pr last T (List.range K) (List.nodup_range K) st kk]
    simp [List.mem_range.mpr hk, slotRun]

lemma stComp_tbRun (sym bp : ℕ → ℕ → ℕ) (pr : ℕ → ℕ → ℝ) (last : ℕ → ℕ)
    (T K kk : ℕ) (hk : kk < K) :
    stComp (tbRun sym bp pr last T K) kk
      = slotRun sym bp pr (last kk) T (kk, [], 0) := by
  unfold tbRun
  rw [stComp_tbRun_aux sym bp pr last K T _ kk hk]
  rfl

lemma slotRun_skip (sym bp : ℕ → ℕ → ℕ) (pr : ℕ → ℕ → ℝ) (L : ℕ) :
    ∀ n s, L + 1 ≤ n → slotRun sym bp pr L n s = slotRun sym bp pr L (L + 1) s := by
  intro n
  induction n with
  | zero => intro s h; omega
  | succ n ih =>
    intro s h
    by_cases hn : L + 1 ≤ n
    · have hL : L < n := hn
      obtain ⟨c, p, a⟩ := s
      have hstep : slotStep sym bp pr L n (c, p, a) = (c, p, a) := by
        simp [slotStep, hL]
      simp only [slotRun, hstep]
      exact ih _ hn
    · have : n = L := by omega
      subst this
      rfl

lemma slotRun_process (sym bp : ℕ → ℕ → ℕ) (pr : ℕ → ℕ → ℝ) (L : ℕ) :
    ∀ t c p (a : ℝ), t ≤ L → ∃ cf,
      slotRun sym bp pr L (t + 1) (c, p, a)
        = (cf, p ++ specTraceTokens sym bp t c, a + specTraceLogProb bp pr t c) := by
  intro t
  induction t with
  | zero =>
    intro c p a h
    refine ⟨bp 0 c, ?_⟩
    have hg : ¬ L < 0 := by omega
    simp [slotRun, slotStep, hg, specTraceTokens, specTraceLogProb]
  | succ t ih =>
    intro c p a h
    have hg : ¬ L < t + 1 := by omega
    obtain ⟨cf, hcf⟩ := ih (bp (t + 1) c) (p ++ [sym (t + 1) c]) (a + pr (t + 1) c)
      (by omega)
    refine ⟨cf, ?_⟩
    have hstep : slotStep sym bp pr L (t + 1) (c, p, a)
        = (bp (t + 1) c, p ++ [sym (t + 1) c], a + pr (t + 1) c) := by
      simp [slotStep, hg]
    conv_lhs => rw [slotRun]
    rw [hstep, hcf]
    simp [specTraceTokens, specTraceLogProb, add_assoc]

/-- C3: for every beam trace and slot kk, the emitted candidate is the
reversal of the buffer built by walking backward from the slot's
termination step (as the specification defines it) down to step 0,
appending the symbol at the current slot and following the backpointer at
each visited step and visiting no step beyond the termination step, and
the accumulated log probability is the corresponding running total. -/
theorem beam_traceback_matches_spec (sym bp : ℕ → ℕ → ℕ) (pr : ℕ → ℕ → ℝ)
    (eos T K kk : ℕ) (hT : 1 ≤ T) (hk : kk < K) :
    foutputsOf (tbRun sym bp pr (lastTokenIndex T sym eos) T K) kk
        = (specTraceTokens sym bp (specTermStep T sym eos kk) kk).reverse
    ∧ (tbRun sym bp pr (lastTokenIndex T sym eos) T K).logAcc kk
        = specTraceLogProb bp pr (specTermStep T sym eos kk) kk := by
  have hrun := stComp_tbRun sym bp pr (lastTokenIndex T sym eos) T K kk hk
  have hT1 : T - 1 + 1 = T := by omega
  cases hfind : (List.range (T - 1)).find? (fun i => sym i kk == eos) with
  | some j =>
    have hLj : lastTokenIndex T sym eos kk = j := by
      unfold lastTokenIndex; rw [hfind]; rfl
    obtain ⟨hjT, hpj, hmin⟩ := find?_range_eq_some.mp hfind
    have ht0 : specTermStep T sym eos kk = j := by
      unfold specTermStep
      rw [← hT1, List.range_succ, List.find?_append, hfind]
      rfl
    have hskip := slotRun_skip sym bp pr j T ((kk, [], 0) : ℕ × List ℕ × ℝ)
      (by omega)
    obtain ⟨cf, hproc⟩ := slotRun_process sym bp pr j j kk [] 0 (le_refl j)
    have hfinal : stComp (tbRun sym bp pr (lastTokenIndex T sym eos) T K) kk
        = (cf, specTraceTokens sym bp j kk, specTraceLogProb bp pr j kk) := by
      rw [hrun, hLj, hskip, hproc]; simp
    constructor
    · have hp := congrArg (fun x => x.2.1) hfinal
      simp only [stComp] at hp
      rw [foutputsOf, hp, ht0]
    · have hp := congrArg (fun x => x.2.2) hfinal
      simp only [stComp] at hp
      rw [hp, ht0]
  | none =>
    have hLT : lastTokenIndex T sym eos kk = T := by
      unfold lastTokenIndex; rw [hfind]; rfl
    have ht0 : specTermStep T sym eos kk = T - 1 := by
      unfold specTermStep
      rw [← hT1, List.range_succ, List.find?_append, hfind]
      by_cases hp : (sym (T - 1) kk == eos) = true
      · simp [List.find?, hp]
      · simp [List.find?, hp]
    obtain ⟨cf, hproc⟩ := slotRun_process sym bp pr T (T - 1) kk [] 0 (by omega)
    rw [hT1] at hproc
    have hfinal : stComp (tbRun sym bp pr (lastTokenIndex T sym eos) T K) kk
        = (cf, specTraceTokens sym bp (T - 1) kk,
            specTraceLogProb bp pr (T - 1) kk) := by
      rw [hrun, hLT, hproc]; simp
    constructor
    · have hp := congrArg (fun x => x.2.1) hfinal
      simp only [stComp] at hp
      rw [foutputsOf, hp, ht0]
    · have hp := congrArg (fun x => x.2.2) hfinal
      simp only [stComp] at hp
      rw [hp, ht0]

/-- Witness for beam_traceback_matches_spec on a concrete 2-step,
2-slot trace. -/
theorem beam_traceback_matches_spec_witness :
    foutputsOf (tbRun (fun i k => i + k) (fun _ k => k) (fun _ _ => (1 : ℝ))
        (lastTokenIndex 2 (fun i k => i + k) 9) 2 2) 0
        = (specTraceTokens (fun i k => i + k) (fun _ k => k)
            (specTermStep 2 (fun i k => i + k) 9 0) 0).reverse
    ∧ (tbRun (fun i k => i + k) (fun _ k => k) (fun _ _ => (1 : ℝ))
        (lastTokenIndex 2 (fun i k => i + k) 9) 2 2).logAcc 0
        = specTraceLogProb (fun _ k => k) (fun _ _ => (1 : ℝ))
            (specTermStep 2 (fun i k => i + k) 9 0) 0 :=
  beam_traceback_matches_spec (fun i k => i + k) (fun _ k => k)
    (fun _ _ => (1 : ℝ)) 9 2 2 0 (by omega) (by omega)

/-- C4 (amended): the recorded termination step lastTokenIndex is the
first step in 0..T-2 whose symbol is the end token, or T (num_steps, not
T-1) when no end token occurs among steps 0..T-2; an end token appearing
for the first time at the final step T-1 is not found by the scan, which
stops at range(num_steps-1).  The backward walk nevertheless visits the
same steps as if T-1 had been recorded, as beam_traceback_matches_spec
shows. -/
theorem lastTokenIndex_characterization (T : ℕ) (sym : ℕ → ℕ → ℕ) (eos k : ℕ) :
    (lastTokenIndex T sym eos k < T - 1
      ∧ sym (lastTokenIndex T sym eos k) k = eos
      ∧ ∀ i < lastTokenIndex T sym eos k, sym i k ≠ eos)
    ∨ (lastTokenIndex T sym eos k = T ∧ ∀ i < T - 1, sym i k ≠ eos) := by
  cases hfind : (List.range (T - 1)).find? (fun i => sym i k == eos) with
  | some j =>
    left
    have hL : lastTokenIndex T sym eos k = j := by
      unfold lastTokenIndex; rw [hfind]; rfl
    obtain ⟨hj, hpj, hmin⟩ := find?_range_eq_some.mp hfind
    rw [hL]
    refine ⟨hj, by simpa using hpj, fun i hi => ?_⟩
    simpa using hmin i hi
  | none =>
    right
    have hL : lastTokenIndex T sym eos k = T := by
      unfold lastTokenIndex; rw [hfind]; rfl
    refine ⟨hL, fun i hi => ?_⟩
    have := List.find?_eq_none.mp hfind i (List.mem_range.mpr hi)
    simpa using this

/-- C4 (counterexample): with T = 2 and the end token 2 first appearing
at the final step 1, the scan misses it and records 2 (= T), not the
claimed first matching step 1. -/
theorem lastTokenIndex_final_step_counterexample :
    lastTokenIndex 2 (fun i _ => if i = 1 then 2 else 5) 2 0 = 2
    ∧ specTermStep 2 (fun i _ => if i = 1 then 2 else 5) 2 0 = 1
    ∧ lastTokenIndex 2 (fun i _ => if i = 1 then 2 else 5) 2 0
        ≠ specTermStep 2 (fun i _ => if i = 1 then 2 else 5) 2 0 := by
  decide

/-- C1: for the vocabulary with pad 0, go 1, eos 2, unk 3, encoder length 4
and decoder length 6, the batch built from the single sample source [4,5],
target [4] (watson, echo and context disabled) has batch columns
encoderSeqs [0,0,5,4] (source reversed then left-padded), decoderSeqs
[1,4,2,0,0,0], targetSeqs [4,2,0,0,0,0] and weights [1,1,0,0,0,0]. -/
theorem createBatch_concrete_scenario :
    (createBatch ⟨0, 1, 2, 3⟩
        ⟨false, false, false, false, false, 4, 4, 6⟩
        [⟨[4, 5], [4], []⟩]).map (fun b =>
          (b.encoderSeqs.map (fun step => step.getD 0 0),
           b.decoderSeqs.map (fun step => step.getD 0 0),
           b.targetSeqs.map (fun step => step.getD 0 0),
           b.weights.map (fun step => step.getD 0 0)))
      = Except.ok ([0, 0, 5, 4], [1, 4, 2, 0, 0, 0], [4, 2, 0, 0, 0, 0],
          ([1, 1, 0, 0, 0, 0] : List ℝ)) := by
  rfl

/-- C2 (counterexample): with echo mode (match_encoder_decoder_input)
enabled, the sample source [4,5], target [4] gets the target-for-loss row
[4,2] while its decoder input row with the leading go dropped is [4,5,2],
so the claimed equality fails. -/
theorem targetRow_echo_counterexample :
    targetRow ⟨0, 1, 2, 3⟩ ⟨[4, 5], [4], []⟩ = [4, 2]
    ∧ (decoderRow ⟨0, 1, 2, 3⟩ ⟨true, false, true, false, false, 4, 4, 6⟩
        ⟨[4, 5], [4], []⟩).drop 1 = [4, 5, 2]
    ∧ targetRow ⟨0, 1, 2, 3⟩ ⟨[4, 5], [4], []⟩
        ≠ (decoderRow ⟨0, 1, 2, 3⟩ ⟨true, false, true, false, false, 4, 4, 6⟩
            ⟨[4, 5], [4], []⟩).drop 1 := by
  decide

/-- C2 (amended): the target-for-loss row is always the go-eos framed
target with the leading go dropped, that is targetIds followed by the end
token; it equals the decoder input with the leading start dropped exactly
when echo mode is disabled, while with echo mode enabled the decoder input
is start, sourceIds, end. -/
theorem targetRow_is_shifted_target (tok : Toks) (args : Args) (s : Sample) :
    targetRow tok s = s.tgt ++ [tok.eosToken]
    ∧ (args.match_encoder_decoder_input = false →
        targetRow tok s = (decoderRow tok args s).drop 1)
    ∧ (args.match_encoder_decoder_input = true →
        decoderRow tok args s = [tok.goToken] ++ s.src ++ [tok.eosToken]) := by
  refine ⟨?_, fun h => ?_, fun h => ?_⟩
  · simp [targetRow, targetSeqWithGo]
  · simp [targetRow, decoderRow, targetSeqWithGo, h]
  · simp [decoderRow, h]

/-- Witness for targetRow_is_shifted_target at a concrete sample. -/
theorem targetRow_is_shifted_target_witness :
    targetRow ⟨0, 1, 2, 3⟩ ⟨[4, 5], [4], []⟩ = [4] ++ [2]
    ∧ targetRow ⟨0, 1, 2, 3⟩ ⟨[4, 5], [4], []⟩
        = (decoderRow ⟨0, 1, 2, 3⟩ ⟨false, false, false, false, false, 4, 4, 6⟩
            ⟨[4, 5], [4], []⟩).drop 1 :=
  ⟨(targetRow_is_shifted_target ⟨0, 1, 2, 3⟩
      ⟨false, false, false, false, false, 4, 4, 6⟩ ⟨[4, 5], [4], []⟩).1,
   (targetRow_is_shifted_target ⟨0, 1, 2, 3⟩
      ⟨false, false, false, false, false, 4, 4, 6⟩ ⟨[4, 5], [4], []⟩).2.1 rfl⟩

/-- C9: getWordId lower-cases the token for lookup; when present it
returns the stored id and leaves the vocabulary unchanged; when absent
with create true it returns the next sequential id (the current table
size) and registers the binding in both directions; when absent with
create false it returns the unknown id and leaves the vocabulary
unchanged (no error in any case, the function being total). -/
theorem getWordId_spec (v : Vocab) (word : String) (create : Bool) :
    (∀ id, v.word2id.lookup (pyLower word) = some id →
        getWordId v word create = (id, v))
    ∧ (v.word2id.lookup (pyLower word) = none → create = true →
        getWordId v word create
          = (v.word2id.length,
             { v with
               word2id := v.word2id ++ [(pyLower word, v.word2id.length)]
               id2word := v.id2word ++ [(v.word2id.length, pyLower word)] }))
    ∧ (v.word2id.lookup (pyLower word) = none → create = false →
        getWordId v word create = (v.unknownToken, v)) := by
  refine ⟨fun id h => ?_, fun h hc => ?_, fun h hc => ?_⟩
  · simp [getWordId, h]
  · simp [getWordId, h, hc]
  · simp [getWordId, h, hc]

/-- Witness for getWordId_spec: a present lower-cased token, a created
token, and an unknown-token fallback at concrete vocabularies. -/
theorem getWordId_spec_witness :
    getWordId ⟨[("a", 0)], [(0, "a")], 3⟩ "A" false = (0, ⟨[("a", 0)], [(0, "a")], 3⟩)
    ∧ getWordId ⟨[("a", 0)], [(0, "a")], 3⟩ "B" true
        = (1, ⟨[("a", 0), ("b", 1)], [(0, "a"), (1, "b")], 3⟩)
    ∧ getWordId ⟨[("a", 0)], [(0, "a")], 3⟩ "B" false
        = (3, ⟨[("a", 0)], [(0, "a")], 3⟩) :=
  ⟨(getWordId_spec ⟨[("a", 0)], [(0, "a")], 3⟩ "A" false).1 0 (by decide),
   (getWordId_spec ⟨[("a", 0)], [(0, "a")], 3⟩ "B" true).2.1 (by decide) rfl,
   (getWordId_spec ⟨[("a", 0)], [(0, "a")], 3⟩ "B" false).2.2 (by decide) rfl⟩

lemma mem_firstSeenIndices {render : List ℕ → String} {cand : ℕ → List ℕ}
    {K kk : ℕ} :
    kk ∈ firstSeenIndices render cand K
      ↔ kk < K ∧ ∀ j < kk, render (cand j) ≠ render (cand kk) := by
  simp [firstSeenIndices, List.mem_filter, List.mem_range, and_comm]

lemma exists_firstSeen_render {render : List ℕ → String} {cand : ℕ → List ℕ}
    {K : ℕ} {r : String} :
    (∃ j < K, render (cand j) = r)
      ↔ ∃ kk ∈ firstSeenIndices render cand K, render (cand kk) = r := by
  constructor
  · rintro ⟨j, hj, hr⟩
    have hex : ∃ i, render (cand i) = r ∧ i < K := ⟨j, hr, hj⟩
    refine ⟨Nat.find hex, ?_, (Nat.find_spec hex).1⟩
    rw [mem_firstSeenIndices]
    refine ⟨(Nat.find_spec hex).2, fun i hi hcontra => ?_⟩
    have hiK : i < K := lt_trans hi (Nat.find_spec hex).2
    exact Nat.find_min hex hi ⟨hcontra.trans (Nat.find_spec hex).1, hiK⟩
  · rintro ⟨kk, hmem, hr⟩
    exact ⟨kk, (mem_firstSeenIndices.mp hmem).1, hr⟩

lemma firstSeenIndices_succ (render : List ℕ → String) (cand : ℕ → List ℕ)
    (K : ℕ) :
    firstSeenIndices render cand (K + 1)
      = firstSeenIndices render cand K
        ++ if ∀ j < K, render (cand j) ≠ render (cand K) then [K] else [] := by
  by_cases h : ∀ j < K, render (cand j) ≠ render (cand K)
  · have hd : decide (∀ j < K, render (cand j) ≠ render (cand K)) = true := by
      simpa using h
    simp only [firstSeenIndices, List.range_succ, List.filter_append,
      List.filter, hd]
    rw [if_pos h]
  · have hd : decide (∀ j < K, render (cand j) ≠ render (cand K)) = false := by
      simpa using h
    simp [firstSeenIndices, List.range_succ, List.filter_append, List.filter,
      hd, h]

lemma predRun_succ {R : Type} [LinearOrderedField R] (render : List ℕ → String)
    (cand : ℕ → List ℕ) (scoreOf : ℕ → R) (K : ℕ) :
    predRun render cand scoreOf (K + 1)
      = predStep render cand scoreOf (predRun render cand scoreOf K) K := by
  rw [predRun, List.range_succ, List.foldl_append]
  rfl

lemma predRun_map {R : Type} [LinearOrderedField R] (render : List ℕ → String)
    (cand : ℕ → List ℕ) (scoreOf : ℕ → R) (K : ℕ) :
    (predRun render cand scoreOf K).map
      = (firstSeenIndices render cand K).map
          fun kk => (render (cand kk), scoreOf kk) := by
  induction K with
  | zero => rfl
  | succ K ih =>
    rw [predRun_succ, firstSeenIndices_succ]
    have hkey : ((predRun render cand scoreOf K).map.lookup
        (render (cand K))).isSome
          ↔ ∃ j < K, render (cand j) = render (cand K) := by
      rw [List.lookup_isSome_iff, ih]
      constructor
      · rintro ⟨p, hp, hbe⟩
        obtain ⟨kk, hkk, rfl⟩ := List.mem_map.mp hp
        exact ⟨kk, (mem_firstSeenIndices.mp hkk).1, (beq_iff_eq.mp hbe).symm⟩
      · intro hex
        obtain ⟨kk, hkk, hr⟩ := exists_firstSeen_render.mp hex
        exact ⟨(render (cand kk), scoreOf kk), List.mem_map_of_mem _ hkk,
          beq_iff_eq.mpr hr.symm⟩
    by_cases hdup : ∃ j < K, render (cand j) = render (cand K)
    · have hcond : ¬ ∀ j < K, render (cand j) ≠ render (cand K) := by
        push_neg
        obtain ⟨j, hj, hr⟩ := hdup
        exact ⟨j, hj, hr⟩
      rw [predStep]
      simp only [hkey.mpr hdup, if_true]
      rw [if_neg hcond, List.append_nil, ih]
    · have hcond : ∀ j < K, render (cand j) ≠ render (cand K) := by
        push_neg at hdup
        exact hdup
      have hnot : ¬ ((predRun render cand scoreOf K).map.lookup
          (render (cand K))).isSome = true := by
        rw [hkey]; exact hdup
      rw [predStep]
      rw [if_neg hnot, if_pos hcond, List.map_append, ← ih]
      by_cases hk0 : K = 0
      · rw [if_pos hk0]
        simp
      · rw [if_neg hk0]
        by_cases hlt : (predRun render cand scoreOf K).best < scoreOf K
        · rw [if_pos hlt]
          simp
        · rw [if_neg hlt]
          simp

lemma length_filter_partition {α : Type} (p : α → Bool) (l : List α) :
    (l.filter p).length + (l.filter fun a => !(p a)).length = l.length := by
  induction l with
  | nil => rfl
  | cons a l ih =>
    cases h : p a <;> simp [List.filter, h] <;> omega

lemma predRun_answer {R : Type} [LinearOrderedField R]
    (render : List ℕ → String) (cand : ℕ → List ℕ) (scoreOf : ℕ → R)
    (K : ℕ) (hK : 1 ≤ K) :
    ∃ b ∈ firstSeenIndices render cand K,
      (predRun render cand scoreOf K).answer = cand b
      ∧ (predRun render cand scoreOf K).best = scoreOf b
      ∧ (∀ j ∈ firstSeenIndices render cand K, scoreOf j ≤ scoreOf b)
      ∧ (∀ j ∈ firstSeenIndices render cand K, j < b → scoreOf j < scoreOf b) := by
  induction K with
  | zero => omega
  | succ K ih =>
    by_cases hK0 : K = 0
    · subst hK0
      refine ⟨0, ?_, ?_, ?_, ?_, ?_⟩
      · rw [mem_firstSeenIndices]
        exact ⟨Nat.zero_lt_one, fun j hj => absurd hj (Nat.not_lt_zero j)⟩
      · rfl
      · rfl
      · intro j hj
        have : j = 0 := by
          have := (mem_firstSeenIndices.mp hj).1
          omega
        subst this
        exact le_refl _
      · intro j hj hj0
        omega
    · obtain ⟨b, hbmem, hans, hbest, hmax, hstrict⟩ := ih (by omega)
      have hbK : b < K := (mem_firstSeenIndices.mp hbmem).1
      have hkey : ((predRun render cand scoreOf K).map.lookup
          (render (cand K))).isSome
            ↔ ∃ j < K, render (cand j) = render (cand K) := by
        rw [List.lookup_isSome_iff, predRun_map]
        constructor
        · rintro ⟨p, hp, hbe⟩
          obtain ⟨kk, hkk, rfl⟩ := List.mem_map.mp hp
          exact ⟨kk, (mem_firstSeenIndices.mp hkk).1, (beq_iff_eq.mp hbe).symm⟩
        · intro hex
          obtain ⟨kk, hkk, hr⟩ := exists_firstSeen_render.mp hex
          exact ⟨(render (cand kk), scoreOf kk), List.mem_map_of_mem _ hkk,
            beq_iff_eq.mpr hr.symm⟩
      rw [predRun_succ, firstSeenIndices_succ]
      by_cases hdup : ∃ j < K, render (cand j) = render (cand K)
      · have hcond : ¬ ∀ j < K, render (cand j) ≠ render (cand K) := by
          push_neg
          obtain ⟨j, hj, hr⟩ := hdup
          exact ⟨j, hj, hr⟩
        rw [predStep]
        simp only [hkey.mpr hdup, if_true]
        rw [if_neg hcond, List.append_nil]
        exact ⟨b, hbmem, hans, hbest, hmax, hstrict⟩
      · have hcond : ∀ j < K, render (cand j) ≠ render (cand K) := by
          push_neg at hdup
          exact hdup
        have hnot : ¬ ((predRun render cand scoreOf K).map.lookup
            (render (cand K))).isSome = true := by
          rw [hkey]; exact hdup
        rw [predStep]
        rw [if_neg hnot, if_pos hcond, if_neg hK0]
        by_cases hlt : (predRun render cand scoreOf K).best < scoreOf K
        · rw [if_pos hlt]
          have hbltK : scoreOf b < scoreOf K := hbest ▸ hlt
          refine ⟨K, ?_, rfl, rfl, ?_, ?_⟩
          · rw [List.mem_append]
            right
            exact List.mem_singleton_self K
          · intro j hj
            rw [List.mem_append] at hj
            rcases hj with hj | hj
            · exact le_of_lt (lt_of_le_of_lt (hmax j hj) hbltK)
            · have : j = K := by simpa using hj
              subst this
              exact le_refl _
          · intro j hj hjK
            rw [List.mem_append] at hj
            rcases hj with hj | hj
            · exact lt_of_le_of_lt (hmax j hj) hbltK
            · have : j = K := by simpa using hj
              omega
        · rw [if_neg hlt]
          have hKleb : scoreOf K ≤ scoreOf b := hbest ▸ le_of_not_lt hlt
          refine ⟨b, ?_, hans, hbest, ?_, ?_⟩
          · rw [List.mem_append]
            left
            exact hbmem
          · intro j hj
            rw [List.mem_append] at hj
            rcases hj with hj | hj
            · exact hmax j hj
            · have : j = K := by simpa using hj
              subst this
              exact hKleb
          · intro j hj hjb
            rw [List.mem_append] at hj
            rcases hj with hj | hj
            · exact hstrict j hj hjb
            · have : j = K := by simpa using hj
              omega

/-- C5: the reply_score_map built by the candidate loop keeps exactly the
slots whose cleaned rendering (sequence2str with clean set: pad and go
stripped, rendering halted at the first eos) differs from that of every
earlier slot, each mapped to the score computed at its first-seen slot
(later duplicates are dropped entirely, not merged), and its size plus
the number of dropped later duplicates is K, so each duplicated pair
shrinks the deduplicated list by one entry. -/
theorem dedup_keeps_first_seen {R : Type} [LinearOrderedField R] (tok : Toks)
    (id2word : ℕ → String) (cand : ℕ → List ℕ) (scoreOf : ℕ → R) (K : ℕ) :
    (predRun (fun c => sequence2str tok id2word c true false)
        cand scoreOf K).map
        = (firstSeenIndices (fun c => sequence2str tok id2word c true false)
            cand K).map
            (fun kk => (sequence2str tok id2word (cand kk) true false,
              scoreOf kk))
    ∧ (predRun (fun c => sequence2str tok id2word c true false)
          cand scoreOf K).map.length
        + ((List.range K).filter (fun kk =>
            !(decide (∀ j < kk,
              sequence2str tok id2word (cand j) true false
                ≠ sequence2str tok id2word (cand kk) true false)))).length
        = K := by
  constructor
  · exact predRun_map _ cand scoreOf K
  · rw [predRun_map _ cand scoreOf K, List.length_map]
    simpa [firstSeenIndices] using
      length_filter_partition (fun kk => decide (∀ j < kk,
        sequence2str tok id2word (cand j) true false
          ≠ sequence2str tok id2word (cand kk) true false)) (List.range K)

/-- C8: in non-MMI mode (the mode flag of scoreOfMode false, so every
slot scores its raw log probability), the loop's final answer is the
unique-candidate whose raw log probability is maximal among the
deduplicated slots and, among those, the one with the least beam index:
every unique slot scores no more than it, and every unique slot before
it scores strictly less, which is exactly replacement only on a strictly
greater score with ties keeping the earlier index, starting from beam
index 0. -/
theorem nonMMI_best_selection {R : Type} [LinearOrderedField R] (rlog : R → R)
    (id2word : ℕ → String) (P : String → String → R) (lambda_wt : R)
    (gamma_wt : ℕ) (render : List ℕ → String) (cand : ℕ → List ℕ)
    (lp : ℕ → R) (K : ℕ) (hK : 1 ≤ K) :
    ∃ b ∈ firstSeenIndices render cand K,
      (predRun render cand
          (scoreOfMode false rlog id2word P lambda_wt gamma_wt lp cand)
          K).answer = cand b
      ∧ (predRun render cand
          (scoreOfMode false rlog id2word P lambda_wt gamma_wt lp cand)
          K).best = lp b
      ∧ (∀ j ∈ firstSeenIndices render cand K, lp j ≤ lp b)
      ∧ (∀ j ∈ firstSeenIndices render cand K, j < b → lp j < lp b) := by
  have h := predRun_answer render cand
    (scoreOfMode false rlog id2word P lambda_wt gamma_wt lp cand) K hK
  simpa [scoreOfMode] using h

/-- Witness for nonMMI_best_selection with one beam slot over the
rationals. -/
theorem nonMMI_best_selection_witness :
    ∃ b ∈ firstSeenIndices (fun _ => "r") (fun _ => ([] : List ℕ)) 1,
      (predRun (fun _ => "r") (fun _ => ([] : List ℕ))
          (scoreOfMode false (id : ℚ → ℚ) (fun _ => "w") (fun _ _ => 0) 0 0
            (fun _ => 0) (fun _ => [])) 1).answer = ([] : List ℕ)
      ∧ (predRun (fun _ => "r") (fun _ => ([] : List ℕ))
          (scoreOfMode false (id : ℚ → ℚ) (fun _ => "w") (fun _ _ => 0) 0 0
            (fun _ => 0) (fun _ => [])) 1).best = (0 : ℚ)
      ∧ (∀ j ∈ firstSeenIndices (fun _ => "r") (fun _ => ([] : List ℕ)) 1,
          (0 : ℚ) ≤ 0)
      ∧ (∀ j ∈ firstSeenIndices (fun _ => "r") (fun _ => ([] : List ℕ)) 1,
          j < b → (0 : ℚ) < 0) :=
  nonMMI_best_selection (id : ℚ → ℚ) (fun _ => "w") (fun _ _ => 0) 0 0
    (fun _ => "r") (fun _ => []) (fun _ => 0) 1 (by omega)

lemma insertDesc_perm {α R : Type} [LinearOrder R] (key : α → R) (x : α)
    (l : List α) : List.Perm (insertDesc key x l) (x :: l) := by
  induction l with
  | nil => exact List.Perm.refl _
  | cons y ys ih =>
    rw [insertDesc]
    by_cases h : key x ≤ key y
    · rw [if_pos h]
      exact (ih.cons y).trans (List.Perm.swap x y ys)
    · rw [if_neg h]

lemma insertDesc_sorted {α R : Type} [LinearOrder R] (key : α → R) (x : α)
    (l : List α) (hl : l.Pairwise (fun a b => key b ≤ key a)) :
    (insertDesc key x l).Pairwise (fun a b => key b ≤ key a) := by
  induction l with
  | nil => simp [insertDesc]
  | cons y ys ih =>
    obtain ⟨hy, hys⟩ := List.pairwise_cons.mp hl
    rw [insertDesc]
    by_cases h : key x ≤ key y
    · rw [if_pos h]
      rw [List.pairwise_cons]
      refine ⟨fun z hz => ?_, ih hys⟩
      rcases List.mem_cons.mp ((insertDesc_perm key x ys).mem_iff.mp hz)
        with rfl | hz
      · exact h
      · exact hy z hz
    · rw [if_neg h]
      rw [List.pairwise_cons]
      refine ⟨fun z hz => ?_, hl⟩
      rcases List.mem_cons.mp hz with rfl | hz
      · exact le_of_lt (lt_of_not_le h)
      · exact le_trans (hy z hz) (le_of_lt (lt_of_not_le h))

lemma insertDesc_filter {α R : Type} [LinearOrder R] (key : α → R) (x : α)
    (l : List α) (s : R) (hl : l.Pairwise (fun a b => key b ≤ key a)) :
    (insertDesc key x l).filter (fun a => decide (key a = s))
      = l.filter (fun a => decide (key a = s))
        ++ if key x = s then [x] else [] := by
  induction l with
  | nil =>
    by_cases h : key x = s
    · simp [insertDesc, List.filter, h]
    · simp [insertDesc, List.filter, h]
  | cons y ys ih =>
    obtain ⟨hy, hys⟩ := List.pairwise_cons.mp hl
    rw [insertDesc]
    by_cases h : key x ≤ key y
    · rw [if_pos h]
      rw [List.filter_cons, List.filter_cons]
      by_cases hps : key y = s
      · have hd : decide (key y = s) = true := by simpa using hps
        simp only [hd, if_true]
        rw [ih hys, List.cons_append]
      · have hd : decide (key y = s) = false := by simpa using hps
        simp only [hd, Bool.false_eq_true, if_false]
        exact ih hys
    · rw [if_neg h]
      have hyx : key y < key x := lt_of_not_le h
      by_cases hps : key x = s
      · have hd : decide (key x = s) = true := by simpa using hps
        rw [List.filter_cons, hd]
        simp only [if_true]
        have hnil : (y :: ys).filter (fun a => decide (key a = s)) = [] := by
          rw [List.filter_eq_nil_iff]
          intro a ha
          have hle : key a ≤ key y := by
            rcases List.mem_cons.mp ha with rfl | ha
            · exact le_refl _
            · exact hy a ha
          have hne : key a ≠ s := by
            intro he
            rw [← hps] at he
            rw [he] at hle
            exact absurd (lt_of_le_of_lt hle hyx) (lt_irrefl _)
          simpa using hne
        rw [hnil, if_pos hps]
        rfl
      · have hd : decide (key x = s) = false := by simpa using hps
        rw [List.filter_cons, hd]
        simp only [Bool.false_eq_true, if_false]
        rw [if_neg hps, List.append_nil]

lemma pySortDesc_aux {α R : Type} [LinearOrder R] (key : α → R) :
    ∀ (l acc : List α), acc.Pairwise (fun a b => key b ≤ key a) →
      (l.foldl (fun acc x => insertDesc key x acc) acc).Pairwise
          (fun a b => key b ≤ key a)
      ∧ List.Perm (l.foldl (fun acc x => insertDesc key x acc) acc) (acc ++ l)
      ∧ ∀ s, (l.foldl (fun acc x => insertDesc key x acc) acc).filter
            (fun a => decide (key a = s))
          = acc.filter (fun a => decide (key a = s))
            ++ l.filter (fun a => decide (key a = s)) := by
  intro l
  induction l with
  | nil =>
    intro acc hacc
    exact ⟨hacc, by simp, fun s => by simp⟩
  | cons x xs ih =>
    intro acc hacc
    rw [List.foldl_cons]
    obtain ⟨hs, hp, hf⟩ := ih (insertDesc key x acc)
      (insertDesc_sorted key x acc hacc)
    refine ⟨hs, ?_, ?_⟩
    · refine hp.trans ?_
      have h1 : List.Perm (insertDesc key x acc ++ xs) ((x :: acc) ++ xs) :=
        (insertDesc_perm key x acc).append_right xs
      refine h1.trans ?_
      simpa using (@List.perm_middle _ x acc xs).symm
    · intro s
      rw [hf s, insertDesc_filter key x acc s hacc, List.filter_cons]
      by_cases hps : key x = s
      · have hd : decide (key x = s) = true := by simpa using hps
        simp [hd, hps]
      · have hd : decide (key x = s) = false := by simpa using hps
        simp [hd, hps]

lemma sorted_before {α R : Type} [LinearOrder R] (key : α → R) :
    ∀ (l : List α), l.Pairwise (fun a b => key b ≤ key a) →
      ∀ x y, x ∈ l → y ∈ l → key y < key x → listBefore x y l := by
  intro l
  induction l with
  | nil =>
    intro _ x y hx
    simp at hx
  | cons h t ih =>
    intro hp x y hx hy hlt
    obtain ⟨hh, ht⟩ := List.pairwise_cons.mp hp
    rcases List.mem_cons.mp hx with hxh | hxt
    · subst hxh
      have hyt : y ∈ t := by
        rcases List.mem_cons.mp hy with hyh | hyt
        · rw [hyh] at hlt
          exact absurd hlt (lt_irrefl _)
        · exact hyt
      obtain ⟨s, t2, hsplit⟩ := List.append_of_mem hyt
      exact ⟨[], s, t2, by rw [hsplit]; rfl⟩
    · rcases List.mem_cons.mp hy with hyh | hyt
      · rw [hyh] at hlt
        exact absurd (hh x hxt) (not_le_of_lt hlt)
      · obtain ⟨l₁, l₂, l₃, hsplit⟩ := ih ht x y hxt hyt hlt
        exact ⟨h :: l₁, l₂, l₃, by rw [hsplit]; rfl⟩

/-- C7: with MMI enabled, sorting the deduplicated reply map by score
descending (python sorted with reverse true, a stable sort) yields a
permutation of the map that is pairwise descending, preserves the
original relative order of equal scores, and the loop's final answer is
the candidate with the highest adjusted score (not the highest raw log
probability): whenever raw(a) exceeds raw(b) but the adjusted score of b
exceeds that of a, the entry of b is placed strictly ahead of the entry
of a and the adjusted score of a is strictly below the selected best
score, so a is not the answer. -/
theorem mmi_rerank_spec {R : Type} [LinearOrderedField R] (rlog : R → R)
    (id2word : ℕ → String) (P : String → String → R) (lambda_wt : R)
    (gamma_wt : ℕ) (render : List ℕ → String) (cand : ℕ → List ℕ)
    (lp : ℕ → R) (K : ℕ) (hK : 1 ≤ K) :
    (pySortDesc Prod.snd (predRun render cand
        (scoreOfMode true rlog id2word P lambda_wt gamma_wt lp cand)
        K).map).Pairwise (fun a b => b.2 ≤ a.2)
    ∧ List.Perm
        (pySortDesc Prod.snd (predRun render cand
          (scoreOfMode true rlog id2word P lambda_wt gamma_wt lp cand) K).map)
        (predRun render cand
          (scoreOfMode true rlog id2word P lambda_wt gamma_wt lp cand) K).map
    ∧ (∀ s : R,
        (pySortDesc Prod.snd (predRun render cand
            (scoreOfMode true rlog id2word P lambda_wt gamma_wt lp cand)
            K).map).filter (fun x => decide (x.2 = s))
          = ((predRun render cand
              (scoreOfMode true rlog id2word P lambda_wt gamma_wt lp cand)
              K).map).filter (fun x => decide (x.2 = s)))
    ∧ (∃ b ∈ firstSeenIndices render cand K,
        (predRun render cand
          (scoreOfMode true rlog id2word P lambda_wt gamma_wt lp cand)
          K).answer = cand b
        ∧ (predRun render cand
            (scoreOfMode true rlog id2word P lambda_wt gamma_wt lp cand)
            K).best = scoreOfMode true rlog id2word P lambda_wt gamma_wt lp cand b
        ∧ ∀ j ∈ firstSeenIndices render cand K,
            scoreOfMode true rlog id2word P lambda_wt gamma_wt lp cand j
              ≤ scoreOfMode true rlog id2word P lambda_wt gamma_wt lp cand b)
    ∧ (∀ a b, a ∈ firstSeenIndices render cand K →
        b ∈ firstSeenIndices render cand K →
        lp b < lp a →
        scoreOfMode true rlog id2word P lambda_wt gamma_wt lp cand a
          < scoreOfMode true rlog id2word P lambda_wt gamma_wt lp cand b →
        listBefore
          (render (cand b), scoreOfMode true rlog id2word P lambda_wt gamma_wt lp cand b)
          (render (cand a), scoreOfMode true rlog id2word P lambda_wt gamma_wt lp cand a)
          (pySortDesc Prod.snd (predRun render cand
            (scoreOfMode true rlog id2word P lambda_wt gamma_wt lp cand) K).map)
        ∧ scoreOfMode true rlog id2word P lambda_wt gamma_wt lp cand a
            < (predRun render cand
                (scoreOfMode true rlog id2word P lambda_wt gamma_wt lp cand)
                K).best) := by
  obtain ⟨hsorted, hperm, hfilter⟩ := pySortDesc_aux (fun p : String × R => p.2)
    ((predRun render cand
      (scoreOfMode true rlog id2word P lambda_wt gamma_wt lp cand) K).map)
    [] List.Pairwise.nil
  have hperm' : List.Perm
      (pySortDesc Prod.snd (predRun render cand
        (scoreOfMode true rlog id2word P lambda_wt gamma_wt lp cand) K).map)
      (predRun render cand
        (scoreOfMode true rlog id2word P lambda_wt gamma_wt lp cand) K).map := by
    rw [pySortDesc]
    simpa using hperm
  obtain ⟨b0, hb0mem, hb0ans, hb0best, hb0max, _⟩ := predRun_answer render cand
    (scoreOfMode true rlog id2word P lambda_wt gamma_wt lp cand) K hK
  refine ⟨hsorted, hperm', ?_, ⟨b0, hb0mem, hb0ans, hb0best, hb0max⟩, ?_⟩
  · intro s
    rw [pySortDesc]
    simpa using hfilter s
  · intro a b ha hb _ hsc
    have hma : (render (cand a),
        scoreOfMode true rlog id2word P lambda_wt gamma_wt lp cand a)
        ∈ (predRun render cand
            (scoreOfMode true rlog id2word P lambda_wt gamma_wt lp cand)
            K).map := by
      rw [predRun_map]
      exact List.mem_map_of_mem _ ha
    have hmb : (render (cand b),
        scoreOfMode true rlog id2word P lambda_wt gamma_wt lp cand b)
        ∈ (predRun render cand
            (scoreOfMode true rlog id2word P lambda_wt gamma_wt lp cand)
            K).map := by
      rw [predRun_map]
      exact List.mem_map_of_mem _ hb
    refine ⟨sorted_before (fun p : String × R => p.2) _ hsorted _ _
      (hperm'.mem_iff.mpr hmb) (hperm'.mem_iff.mpr hma) hsc, ?_⟩
    exact lt_of_lt_of_le hsc (hb0best ▸ hb0max b hb)

/-- Witness for mmi_rerank_spec with one beam slot over the rationals. -/
theorem mmi_rerank_spec_witness :
    (pySortDesc Prod.snd (predRun (fun _ => "r") (fun _ => ([] : List ℕ))
        (scoreOfMode true (id : ℚ → ℚ) (fun _ => "w") (fun _ _ => 0) 0 0
          (fun _ => 0) (fun _ => []))
        1).map).Pairwise (fun a b => b.2 ≤ a.2)
    ∧ List.Perm
        (pySortDesc Prod.snd (predRun (fun _ => "r") (fun _ => ([] : List ℕ))
          (scoreOfMode true (id : ℚ → ℚ) (fun _ => "w") (fun _ _ => 0) 0 0
            (fun _ => 0) (fun _ => [])) 1).map)
        (predRun (fun _ => "r") (fun _ => ([] : List ℕ))
          (scoreOfMode true (id : ℚ → ℚ) (fun _ => "w") (fun _ _ => 0) 0 0
            (fun _ => 0) (fun _ => [])) 1).map
    ∧ (∀ s : ℚ,
        (pySortDesc Prod.snd (predRun (fun _ => "r") (fun _ => ([] : List ℕ))
            (scoreOfMode true (id : ℚ → ℚ) (fun _ => "w") (fun _ _ => 0) 0 0
              (fun _ => 0) (fun _ => []))
            1).map).filter (fun x => decide (x.2 = s))
          = ((predRun (fun _ => "r") (fun _ => ([] : List ℕ))
              (scoreOfMode true (id : ℚ → ℚ) (fun _ => "w") (fun _ _ => 0) 0 0
                (fun _ => 0) (fun _ => []))
              1).map).filter (fun x => decide (x.2 = s)))
    ∧ (∃ b ∈ firstSeenIndices (fun _ => "r") (fun _ => ([] : List ℕ)) 1,
        (predRun (fun _ => "r") (fun _ => ([] : List ℕ))
          (scoreOfMode true (id : ℚ → ℚ) (fun _ => "w") (fun _ _ => 0) 0 0
            (fun _ => 0) (fun _ => [])) 1).answer = ([] : List ℕ)
        ∧ (predRun (fun _ => "r") (fun _ => ([] : List ℕ))
            (scoreOfMode true (id : ℚ → ℚ) (fun _ => "w") (fun _ _ => 0) 0 0
              (fun _ => 0) (fun _ => [])) 1).best
            = scoreOfMode true (id : ℚ → ℚ) (fun _ => "w") (fun _ _ => 0) 0 0
              (fun _ => 0) (fun _ => []) b
        ∧ ∀ j ∈ firstSeenIndices (fun _ => "r") (fun _ => ([] : List ℕ)) 1,
            scoreOfMode true (id : ℚ → ℚ) (fun _ => "w") (fun _ _ => 0) 0 0
              (fun _ => 0) (fun _ => []) j
              ≤ scoreOfMode true (id : ℚ → ℚ) (fun _ => "w") (fun _ _ => 0) 0 0
                (fun _ => 0) (fun _ => []) b)
    ∧ (∀ a b, a ∈ firstSeenIndices (fun _ => "r") (fun _ => ([] : List ℕ)) 1 →
        b ∈ firstSeenIndices (fun _ => "r") (fun _ => ([] : List ℕ)) 1 →
        (0 : ℚ) < 0 →
        scoreOfMode true (id : ℚ → ℚ) (fun _ => "w") (fun _ _ => 0) 0 0
          (fun _ => 0) (fun _ => []) a
          < scoreOfMode true (id : ℚ → ℚ) (fun _ => "w") (fun _ _ => 0) 0 0
            (fun _ => 0) (fun _ => []) b →
        listBefore
          ("r", scoreOfMode true (id : ℚ → ℚ) (fun _ => "w") (fun _ _ => 0) 0 0
            (fun _ => 0) (fun _ => []) b)
          ("r", scoreOfMode true (id : ℚ → ℚ) (fun _ => "w") (fun _ _ => 0) 0 0
            (fun _ => 0) (fun _ => []) a)
          (pySortDesc Prod.snd (predRun (fun _ => "r") (fun _ => ([] : List ℕ))
            (scoreOfMode true (id : ℚ → ℚ) (fun _ => "w") (fun _ _ => 0) 0 0
              (fun _ => 0) (fun _ => [])) 1).map)
        ∧ scoreOfMode true (id : ℚ → ℚ) (fun _ => "w") (fun _ _ => 0) 0 0
            (fun _ => 0) (fun _ => []) a
            < (predRun (fun _ => "r") (fun _ => ([] : List ℕ))
                (scoreOfMode true (id : ℚ → ℚ) (fun _ => "w") (fun _ _ => 0) 0 0
                  (fun _ => 0) (fun _ => [])) 1).best) :=
  mmi_rerank_spec (id : ℚ → ℚ) (fun _ => "w") (fun _ _ => 0) 0 0
    (fun _ => "r") (fun _ => []) (fun _ => 0) 1 (by omega)


lemma lmPenalty_fold {R : Type} [LinearOrderedField R] (rlog : R → R)
    (P : String → String → R) (hP : ∀ a b, 0 ≤ P a b) :
    ∀ (ws : List String) (prev : String) (acc : R),
      (ws.foldl (fun (acc : R × String) w =>
          (if 0 < P acc.2 w then acc.1 + rlog (P acc.2 w) else acc.1, w))
        (acc, prev)).1
      = acc + specLMPenaltyAux rlog P prev ws := by
  intro ws
  induction ws with
  | nil =>
    intro prev acc
    simp [specLMPenaltyAux]
  | cons w rest ih =>
    intro prev acc
    rw [List.foldl_cons]
    by_cases h : 0 < P prev w
    · have hne : P prev w ≠ 0 := (ne_of_lt h).symm
      simp only [h, if_true]
      rw [ih w (acc + rlog (P prev w)), specLMPenaltyAux, if_neg hne]
      ring
    · have h0 : P prev w = 0 := le_antisymm (not_lt.mp h) (hP prev w)
      simp only [h, if_false]
      rw [ih w acc, specLMPenaltyAux, if_pos h0]
      ring

/-- C6: for bigram tables with nonnegative probabilities (every
probability table satisfies this), the loop's adjusted score equals the
raw log probability minus lambda_wt times the specified penalty — the
sum of log P(token | previous) over only the candidate's first gamma_wt
tokens starting from the reserved start marker, every zero-probability
bigram contributing exactly zero instead of negative infinity — plus
gamma_wt times the candidate length; the scoring function is total, so a
zero probability never raises or propagates an error. -/
theorem mmi_score_formula {R : Type} [LinearOrderedField R] (rlog : R → R)
    (id2word : ℕ → String) (P : String → String → R) (lambda_wt : R)
    (gamma_wt : ℕ) (rawLP : R) (cand : List ℕ)
    (hP : ∀ a b, 0 ≤ P a b) :
    mmiScoreOf rlog id2word P lambda_wt gamma_wt rawLP cand
      = rawLP
        - lambda_wt * specLMPenaltyAux rlog P "<start>"
            ((cand.take gamma_wt).map id2word)
        + (gamma_wt : R) * (cand.length : R) := by
  rw [mmiScoreOf, lmPenalty,
    lmPenalty_fold rlog P hP ((cand.take gamma_wt).map id2word) "<start>" 0,
    zero_add]

/-- Witness for mmi_score_formula over the reals with Real.log and the
all-zero bigram table. -/
theorem mmi_score_formula_witness :
    mmiScoreOf Real.log (fun _ => "w") (fun _ _ => (0 : ℝ)) 1 2 5 [4]
      = 5 - 1 * specLMPenaltyAux Real.log (fun _ _ => (0 : ℝ)) "<start>"
            ((([4] : List ℕ).take 2).map (fun _ => "w"))
        + (2 : ℝ) * ((([4] : List ℕ).length : ℕ) : ℝ) :=
  mmi_score_formula Real.log (fun _ => "w") (fun _ _ => (0 : ℝ)) 1 2 5 [4]
    (fun _ _ => le_refl 0)


lemma sampleRows_ok (tok : Toks) (args : Args) (s0 : Sample)
    (h1 : (encoderRow (watsonAdjust args s0)).length ≤ args.maxLengthEnco)
    (h2 : (decoderRow tok args (watsonAdjust args s0)).length
        ≤ args.maxLengthDeco) :
    ∃ r, sampleRows tok args s0 = Except.ok r := by
  rw [sampleRows, if_pos h1, if_pos h2]
  exact ⟨_, rfl⟩

lemma createBatch_single_ok (tok : Toks) (args : Args) (w : List ℕ)
    (ctx : List ℝ) (hw : w.length ≤ args.maxLength)
    (hEnco : args.maxLengthEnco = args.maxLength)
    (hDeco : args.maxLengthDeco = args.maxLength + 2) :
    ∃ b, createBatch tok args [⟨w, [], ctx⟩] = Except.ok b := by
  have h1 : (encoderRow (watsonAdjust args ⟨w, [], ctx⟩)).length
      ≤ args.maxLengthEnco := by
    rw [watsonAdjust]
    by_cases hws : (!args.test && args.watsonMode) = true
    · rw [if_pos hws]
      simp [encoderRow, hEnco]
    · rw [if_neg hws]
      simpa [encoderRow, hEnco] using hw
  have h2 : (decoderRow tok args (watsonAdjust args ⟨w, [], ctx⟩)).length
      ≤ args.maxLengthDeco := by
    rw [watsonAdjust]
    by_cases hws : (!args.test && args.watsonMode) = true <;>
      by_cases hm : args.match_encoder_decoder_input = true
    · rw [if_pos hws, decoderRow, if_pos hm]
      simp [hDeco]
    · rw [if_pos hws, decoderRow, if_neg hm, targetSeqWithGo]
      simp [hDeco]
      omega
    · rw [if_neg hws, decoderRow, if_pos hm]
      simp [hDeco]
      omega
    · rw [if_neg hws, decoderRow, if_neg hm, targetSeqWithGo]
      simp [hDeco]
  obtain ⟨r, hr⟩ := sampleRows_ok tok args ⟨w, [], ctx⟩ h1 h2
  refine ⟨transposeRows args [r], ?_⟩
  have hb : buildRows tok args [⟨w, [], ctx⟩] = Except.ok [r] := by
    rw [buildRows, hr]
    rfl
  rw [createBatch, hb]
  rfl

/-- C10: when the encoder budget equals maxLength and the decoder budget
is maxLength + 2 (chatbot.py lines 724-725), sentence2enco produces no
batch exactly for the empty sentence or a tokenization longer than
maxLength; on every accepted sentence the length assertions inside
_createBatch cannot fail (no AssertionError is ever raised on this
path), and singlePredict propagates the missing batch as None so the
caller can skip rather than abort. -/
theorem sentence2enco_safe (v : Vocab) (tok : Toks) (args : Args)
    (tokenize : String → List String) (fetchEmb : String → List ℝ)
    (decode : Batch → List ℕ) (sentence : String)
    (hEnco : args.maxLengthEnco = args.maxLength)
    (hDeco : args.maxLengthDeco = args.maxLength + 2) :
    (sentence2enco v tok args tokenize fetchEmb sentence = Except.ok none
      ↔ sentence = "" ∨ args.maxLength < (tokenize sentence).length)
    ∧ (∀ e, sentence2enco v tok args tokenize fetchEmb sentence
        ≠ Except.error e)
    ∧ (sentence2enco v tok args tokenize fetchEmb sentence = Except.ok none →
        singlePredictFront v tok args tokenize fetchEmb decode sentence
          = Except.ok none) := by
  by_cases hs : sentence = ""
  · subst hs
    have hval : sentence2enco v tok args tokenize fetchEmb ""
        = Except.ok none := by
      rw [sentence2enco, if_pos rfl]
    refine ⟨by simp [hval], fun e => by simp [hval], fun _ => ?_⟩
    rw [singlePredictFront, hval]
    rfl
  · by_cases hlen : args.maxLength < (tokenize sentence).length
    · have hval : sentence2enco v tok args tokenize fetchEmb sentence
          = Except.ok none := by
        rw [sentence2enco, if_neg hs, if_pos hlen]
      refine ⟨by simp [hval, hlen], fun e => by simp [hval], fun _ => ?_⟩
      rw [singlePredictFront, hval]
      rfl
    · have hw : ((tokenize sentence).map
          fun t => (getWordId v t false).1).length ≤ args.maxLength := by
        rw [List.length_map]
        omega
      by_cases hf : args.food_context = true
      · obtain ⟨b, hb⟩ := createBatch_single_ok tok args
          ((tokenize sentence).map fun t => (getWordId v t false).1)
          (fetchEmb sentence) hw hEnco hDeco
        have hval : sentence2enco v tok args tokenize fetchEmb sentence
            = Except.ok (some b) := by
          rw [sentence2enco, if_neg hs, if_neg hlen, if_pos hf, hb]
          rfl
        refine ⟨by simp [hval, hs, hlen], fun e => by simp [hval],
          fun hcontra => ?_⟩
        rw [hval] at hcontra
        simp at hcontra
      · obtain ⟨b, hb⟩ := createBatch_single_ok tok args
          ((tokenize sentence).map fun t => (getWordId v t false).1)
          [] hw hEnco hDeco
        have hval : sentence2enco v tok args tokenize fetchEmb sentence
            = Except.ok (some b) := by
          rw [sentence2enco, if_neg hs, if_neg hlen, if_neg hf, hb]
          rfl
        refine ⟨by simp [hval, hs, hlen], fun e => by simp [hval],
          fun hcontra => ?_⟩
        rw [hval] at hcontra
        simp at hcontra

/-- Witness for sentence2enco_safe on a concrete empty sentence and a
concrete configuration with maxLength 4. -/
theorem sentence2enco_safe_witness :
    (sentence2enco ⟨[], [], 3⟩ ⟨0, 1, 2, 3⟩
        ⟨true, false, false, false, false, 4, 4, 6⟩ (fun _ => []) (fun _ => [])
        "" = Except.ok none
      ↔ "" = "" ∨ 4 < (([] : List String)).length)
    ∧ (∀ e, sentence2enco ⟨[], [], 3⟩ ⟨0, 1, 2, 3⟩
        ⟨true, false, false, false, false, 4, 4, 6⟩ (fun _ => []) (fun _ => [])
        "" ≠ Except.error e)
    ∧ (sentence2enco ⟨[], [], 3⟩ ⟨0, 1, 2, 3⟩
        ⟨true, false, false, false, false, 4, 4, 6⟩ (fun _ => []) (fun _ => [])
        "" = Except.ok none →
        singlePredictFront ⟨[], [], 3⟩ ⟨0, 1, 2, 3⟩
          ⟨true, false, false, false, false, 4, 4, 6⟩ (fun _ => [])
          (fun _ => []) (fun _ => []) "" = Except.ok none) :=
  sentence2enco_safe ⟨[], [], 3⟩ ⟨0, 1, 2, 3⟩
    ⟨true, false, false, false, false, 4, 4, 6⟩ (fun _ => []) (fun _ => [])
    (fun _ => []) "" rfl rfl

end DeepQA
